import Mathlib

/-!
Verification of the es2csv core (src/es2csv.py): the retry wrapper, the
scroll/export loop `dump_index`, the document flattener `to_keyvalue_pairs`,
and the file writers `prepare_file` / `write_to_file`, shallowly embedded as
executable Lean definitions with the Python semantics made explicit
(insertion-ordered dicts as association lists, `str.join`, `json.dumps`).
-/

set_option autoImplicit false

namespace Es2csv

/-- Scalar JSON/Python values that can appear at the leaves of a document:
strings, integers, booleans and `None`/`null`. -/
inductive Scalar where
  | s (v : String)
  | i (v : Int)
  | b (v : Bool)
  | null
  deriving DecidableEq, Repr

/-- A nested document (`_source`): arbitrarily deep maps, ordered sequences
and scalars.  Maps are insertion-ordered key/value lists, matching Python
dicts. -/
inductive Json where
  | scalar (sc : Scalar)
  | arr (items : List Json)
  | obj (fields : List (String × Json))
  deriving Repr

/-- Decimal digits of `n`, most significant first; `fuel`-driven so that it
reduces definitionally (`fuel = n` is always enough). -/
def natDigitsAux : Nat → Nat → List Char
  | 0, _ => []
  | fuel + 1, n =>
    if n = 0 then [] else natDigitsAux fuel (n / 10) ++ [Char.ofNat (48 + n % 10)]

/-- Decimal rendering of a natural number, as Python's `str` produces it. -/
def natStr (n : Nat) : String :=
  if n = 0 then "0" else ⟨natDigitsAux n n⟩

/-- Decimal rendering of an integer, as Python's `str` produces it. -/
def intStr : Int → String
  | .ofNat n => natStr n
  | .negSucc m => "-" ++ natStr (m + 1)

/-- Python's `str()` on a scalar, as used by the `'%s%s%s'` formatting in
`to_keyvalue_pairs` (line 184 of src/es2csv.py). -/
def pyStr : Scalar → String
  | .s v => v
  | .i v => intStr v
  | .b true => "True"
  | .b false => "False"
  | .null => "None"

/-- A value stored in the per-hit `out` dict: either the raw scalar as first
assigned (line 186), or the accumulated `'%s,%s'`-joined string produced when
a second scalar lands on the same header (line 184). -/
inductive OutVal where
  | raw (sc : Scalar)
  | acc (v : String)
  deriving DecidableEq, Repr

/-- How a stored `out` value renders under `%s` formatting. -/
def outValStr : OutVal → String
  | .raw sc => pyStr sc
  | .acc v => v

/-- `sep.join(parts)`, Python string join. -/
def joinSep (sep : String) : List String → String
  | [] => ""
  | [x] => x
  | x :: y :: rest => x ++ sep ++ joinSep sep (y :: rest)

/-- The mutable state threaded through `to_keyvalue_pairs`: the accumulated
`self.csv_headers` list and the per-hit `out` dict (insertion-ordered). -/
structure FlatState where
  headers : List String
  out : List (String × OutVal)
  deriving DecidableEq, Repr

/-- Lookup in an insertion-ordered dict (`out[header]`, first match). -/
def findA : List (String × OutVal) → String → Option OutVal
  | [], _ => none
  | (k', v) :: rest, k => if k' = k then some v else findA rest k

/-- In-place update of an existing key in an insertion-ordered dict
(Python dict assignment keeps the key's position). -/
def setAssoc : List (String × OutVal) → String → OutVal → List (String × OutVal)
  | [], k, v => [(k, v)]
  | (k', v') :: rest, k, v =>
    if k' = k then (k, v) :: rest else (k', v') :: setAssoc rest k v

/-- The scalar branch of `to_keyvalue_pairs` (lines 179-186): join the
ancestors into a header, append the header to `csv_headers` if new, and
either concatenate onto the existing `out[header]` or create the entry. -/
def recordScalar (st : FlatState) (ancestors : List String) (sc : Scalar) : FlatState :=
  let header := joinSep "," ancestors
  let headers := if header ∈ st.headers then st.headers else st.headers ++ [header]
  let out :=
    match findA st.out header with
    | some old => setAssoc st.out header (.acc (outValStr old ++ "," ++ pyStr sc))
    | none => st.out ++ [(header, .raw sc)]
  ⟨headers, out⟩

mutual

/-- `to_keyvalue_pairs(source, ancestors)` (lines 163-186): recursive descent;
a dict recurses into each value with the key appended to `ancestors`; a list
recurses into each item with `ancestors` unchanged (the kibana-nested branch
that is the live code); a scalar is recorded at the joined header. -/
def to_keyvalue_pairs : Json → List String → FlatState → FlatState
  | .obj fields, ancestors, st => kvFields fields ancestors st
  | .arr items, ancestors, st => kvItems items ancestors st
  | .scalar sc, ancestors, st => recordScalar st ancestors sc

/-- Iteration of `to_keyvalue_pairs` over a dict's key/value pairs in order. -/
def kvFields : List (String × Json) → List String → FlatState → FlatState
  | [], _, st => st
  | (k, v) :: rest, ancestors, st =>
    kvFields rest ancestors (to_keyvalue_pairs v (ancestors ++ [k]) st)

/-- Iteration of `to_keyvalue_pairs` over a list's items in order. -/
def kvItems : List Json → List String → FlatState → FlatState
  | [], _, st => st
  | x :: rest, ancestors, st =>
    kvItems rest ancestors (to_keyvalue_pairs x ancestors st)

end

/-- Flattening one document with fresh state, as `write_to_file` does per hit
(fresh `out = {}`; `csv_headers` accumulates across hits but is never read
when producing rows, so fresh state yields the same `out`). -/
def flattenDoc (d : Json) : List (String × OutVal) :=
  (to_keyvalue_pairs d [] ⟨[], []⟩).out

mutual

/-- The ancestor lists at which the scalars of `d` are recorded, in traversal
order (with repetitions): the trace of the scalar branch of
`to_keyvalue_pairs` starting from ancestors `anc`. -/
def scalarPaths : Json → List String → List (List String)
  | .obj fields, anc => pathsFields fields anc
  | .arr items, anc => pathsItems items anc
  | .scalar _, anc => [anc]

/-- `scalarPaths` over a dict's key/value pairs in order. -/
def pathsFields : List (String × Json) → List String → List (List String)
  | [], _ => []
  | (k, v) :: rest, anc => scalarPaths v (anc ++ [k]) ++ pathsFields rest anc

/-- `scalarPaths` over a list's items in order. -/
def pathsItems : List Json → List String → List (List String)
  | [], _ => []
  | x :: rest, anc => scalarPaths x anc ++ pathsItems rest anc

end

/-- The scalar-descent rule of the spec: `Lands d p sc` holds when a scalar
`sc` is reachable in `d` at field-path `p`, descending into map values with
the key appended to the path and into sequence elements without extending the
path.  By construction no array index ever enters `p`: the `arr` rule leaves
the path unchanged. -/
inductive Lands : Json → List String → Scalar → Prop
  | scalar (sc : Scalar) : Lands (.scalar sc) [] sc
  | obj {fields : List (String × Json)} {k : String} {v : Json} {p : List String}
      {sc : Scalar} : (k, v) ∈ fields → Lands v p sc → Lands (.obj fields) (k :: p) sc
  | arr {items : List Json} {x : Json} {p : List String} {sc : Scalar} :
      x ∈ items → Lands x p sc → Lands (.arr items) p sc

/-- Append `h` to `l` unless already present: one step of first-occurrence
deduplication, as both `csv_headers` and the keys of `out` evolve. -/
def insertNew (l : List String) (h : String) : List String :=
  if h ∈ l then l else l ++ [h]

/-- Fold `insertNew` over a list of candidate headers. -/
def insertAll (l : List String) (hs : List String) : List String :=
  hs.foldl insertNew l

/-- One search hit as `dump_index` receives it: its `_source` mapping when
the `_source` key is present (the `_source` of a hit is a JSON object). -/
structure Hit where
  source : Option (List (String × Json))
  deriving Repr

/-- JSON string escaping of one character, as `json.dumps` performs it for
ASCII content. -/
def escChar (c : Char) : List Char :=
  if c = '\\' then ['\\', '\\']
  else if c = '"' then ['\\', '"']
  else if c = '\n' then ['\\', 'n']
  else if c = '\r' then ['\\', 'r']
  else if c = '\t' then ['\\', 't']
  else [c]

/-- A JSON string literal: quotes around the escaped characters. -/
def jsonQuote (s : String) : String :=
  "\"" ++ ⟨s.data.flatMap escChar⟩ ++ "\""

/-- `json.dumps` on a scalar stored raw in `out`. -/
def dumpScalar : Scalar → String
  | .s v => jsonQuote v
  | .i v => intStr v
  | .b true => "true"
  | .b false => "false"
  | .null => "null"

/-- `json.dumps` on one stored `out` value: raw scalars keep their JSON
type, accumulated concatenations are Python strings. -/
def dumpOutVal : OutVal → String
  | .raw sc => dumpScalar sc
  | .acc v => jsonQuote v

/-- `json.dumps(out)` with the default separators: `{"k": v, ...}` in
insertion order. -/
def pyDumps (out : List (String × OutVal)) : String :=
  "\x7b" ++ joinSep ", " (out.map fun kv => jsonQuote kv.1 ++ ": " ++ dumpOutVal kv.2) ++ "\x7d"

/-- The row `write_to_file` emits for one hit in csv mode (lines 188-193):
only when `'_source' in hit` and `len(hit['_source']) > 0`, the flattened
`out` dict serialized by `json.dumps`. -/
def hitRow (h : Hit) : Option String :=
  match h.source with
  | some fields =>
    if 0 < fields.length then
      some (pyDumps (to_keyvalue_pairs (.obj fields) [] ⟨[], []⟩).out)
    else none
  | none => none

/-- The rows one `write_to_file` call appends for a batch, in order. -/
def csvRowsOf (data : List Hit) : List String :=
  data.filterMap hitRow

/-- Concatenation of a list of strings (successive `file.write` calls). -/
def strConcat : List String → String
  | [] => ""
  | s :: rest => s ++ strConcat rest

/-- The text one csv-mode `write_to_file(data)` call appends to the output
file: each row followed by exactly one newline
(`tmp_file.write('%s\n' % json.dumps(out))`, line 193). -/
def write_to_file_csv (data : List Hit) : String :=
  strConcat ((csvRowsOf data).map fun r => r ++ "\n")

/-- Modelled from the spec: `get_headers`, called by `prepare_file` at
line 144, is missing from the source.  Per the spec's `HeaderSet`, it is the
ordered sequence of distinct field-paths observed when flattening the given
`_source` — exactly the `csv_headers` list the flattener accumulates. -/
def get_headers (source : List (String × Json)) : List String :=
  (to_keyvalue_pairs (.obj source) [] ⟨[], []⟩).headers

/-- `prepare_file(index, data, type)` (lines 130-150), reduced to the content
it writes on creation: `none` when the first batch is empty (no file is
created, lines 132-133); otherwise the csv header line
`','.join(get_headers(data[0]['_source']))` for type `'csv'` — written with
no trailing newline (line 145) — and the empty string for type `'json'`.
(The Python indexes `data[0]['_source']` directly; the claims below use the
csv branch only with `_source` present.) -/
def prepare_file : List Hit → String → Option String
  | [], _ => none
  | hd :: _, ftype =>
    some (if ftype = "csv" then joinSep "," (get_headers (hd.source.getD [])) else "")

/-- The csv-mode file content produced for the fetched batches (the first
being the page handed to `prepare_file`, then every batch written by
`write_to_file`): `none` when no file is created. -/
def export_csv : List (List Hit) → Option String
  | [] => none
  | fp :: rest =>
    match prepare_file fp "csv" with
    | none => none
    | some hdr => some (hdr ++ strConcat ((fp :: rest).map write_to_file_csv))

/-- The `while scrolled < scroll_size` loop of `dump_index` (lines 119-128),
driven by the remaining pages the backend will deliver: returns the batches
fetched before the loop condition turns false, or `none` when the backend has
no further pages while `scrolled < total` still holds (the Python loop then
scrolls over empty pages forever). -/
def scrollLoop (total : Nat) : Nat → List (List Hit) → Option (List (List Hit))
  | scrolled, pages =>
    if scrolled < total then
      match pages with
      | [] => none
      | p :: rest => (scrollLoop total (scrolled + p.length) rest).map (p :: ·)
    else some []

/-- Outcome of `dump_index` for one collection. -/
inductive DumpResult where
  | noFile
  | finished (batches : List (List Hit))
  | hangs
  deriving Repr

/-- `dump_index` (lines 87-128), with the backend modelled by the first page,
the `total` hit count reported with it, and the further pages scrolling will
deliver: if the first page is empty, `prepare_file` returns `None` and the
function returns before creating a file or writing anything (lines 114-115);
otherwise the first page and every page the while loop fetches are written in
order; `hangs` marks the backend running out of pages while
`scrolled < scroll_size` still holds. -/
def dump_index (total : Nat) (firstPage : List Hit) (rest : List (List Hit)) :
    DumpResult :=
  if firstPage.length = 0 then .noFile
  else
    match scrollLoop total firstPage.length rest with
    | some more => .finished (firstPage :: more)
    | none => .hangs

/-- The output filename (line 135): the collection id with `.` replaced by
`_`, the export timestamp, and the extension. -/
def output_filename (index stamp ftype : String) : String :=
  index.replace "." "_" ++ "_" ++ stamp ++ "." ++ ftype

/-- One complete csv-mode export run over a collection: the backend input
(total and pages, in the order fixed by the `sort='_id'` scroll) plus the
run's timestamp, yielding the file name and its final content, or `none`
when no file is produced. -/
def export_run (stamp index : String) (total : Nat) (firstPage : List Hit)
    (rest : List (List Hit)) : Option (String × String) :=
  match dump_index total firstPage rest with
  | .finished bs =>
    match export_csv bs with
    | some content => some (output_filename index stamp "csv", content)
    | none => none
  | _ => none

/-- Result of one attempt of the wrapped operation: success with a value, a
failure of the retried class (`ExceptionToCheck`), or any other failure. -/
inductive Outcome where
  | ok (v : Nat)
  | transient (msg : String)
  | other (msg : String)
  deriving DecidableEq, Repr

/-- Observable result of the retry wrapper: a value returned, with the number
of attempts made and the total time slept; `exit(1)` after the final attempt
fails with the retried class (no value returned); or an uncaught failure
propagating to the caller. -/
inductive RetryResult where
  | success (v : Nat) (attemptsMade : Nat) (slept : Nat)
  | fatalExit (attemptsMade : Nat) (slept : Nat)
  | propagated (msg : String) (attemptsMade : Nat) (slept : Nat)
  deriving DecidableEq, Repr

/-- The `while mtries > 0` loop of `f_retry` (lines 38-54) followed by the
final unguarded call (lines 50-54): `f k` is the outcome of attempt `k`
(0-based); a transient failure is caught, `time.sleep(delay)` runs and
`mtries` decrements; any other failure is not caught by
`except ExceptionToCheck` and propagates at once; with the budget exhausted
one final call is made, whose transient failure prints `Fatal Error` and
exits the process. -/
def retryLoop (delay : Nat) (f : Nat → Outcome) : Nat → Nat → Nat → RetryResult
  | 0, attempt, slept =>
    match f attempt with
    | .ok v => .success v (attempt + 1) slept
    | .transient _ => .fatalExit (attempt + 1) slept
    | .other msg => .propagated msg (attempt + 1) slept
  | mtries + 1, attempt, slept =>
    match f attempt with
    | .ok v => .success v (attempt + 1) slept
    | .transient _ => retryLoop delay f mtries (attempt + 1) (slept + delay)
    | .other msg => .propagated msg (attempt + 1) slept

/-- `retry(ExceptionToCheck, tries, delay)` applied to an operation: run the
guarded loop with the full budget, no attempts made and no time slept yet. -/
def retryRun (tries delay : Nat) (f : Nat → Outcome) : RetryResult :=
  retryLoop delay f tries 0 0

/-- A document on which two distinct field-paths have the same comma-joined
rendering: the key `"a,b"` at the top level and the nested path
`["a", "b"]`. -/
def collideDoc : Json :=
  .obj [("a,b", .scalar (.i 1)), ("a", .obj [("b", .scalar (.i 2))])]

/-- The document of the spec's flattening example,
`{"a": {"b": 1, "c": [2, 3]}}`. -/
def c4Doc : Json :=
  .obj [("a", .obj [("b", .scalar (.i 1)),
                    ("c", .arr [.scalar (.i 2), .scalar (.i 3)])])]

/-- A hit with no `_source`, for concrete instances. -/
def noSourceHit : Hit := ⟨none⟩

/-- No character of a string is a newline. -/
def noNl (s : String) : Prop := ∀ c ∈ s.data, c ≠ '\n'

theorem insertAll_nil (l : List String) : insertAll l [] = l := rfl

theorem insertAll_cons (l : List String) (h : String) (hs : List String) :
    insertAll l (h :: hs) = insertAll (insertNew l h) hs := rfl

theorem insertAll_append (l : List String) (a b : List String) :
    insertAll l (a ++ b) = insertAll (insertAll l a) b :=
  List.foldl_append ..

theorem mem_insertNew {x h : String} {l : List String} :
    x ∈ insertNew l h ↔ x ∈ l ∨ x = h := by
  unfold insertNew
  split <;> rename_i hmem
  · constructor
    · exact Or.inl
    · rintro (hx | rfl)
      · exact hx
      · exact hmem
  · simp

theorem mem_insertAll {x : String} {l hs : List String} :
    x ∈ insertAll l hs ↔ x ∈ l ∨ x ∈ hs := by
  induction hs generalizing l with
  | nil => simp [insertAll_nil]
  | cons h t ih =>
    rw [insertAll_cons, ih, mem_insertNew]
    simp only [List.mem_cons]
    tauto

theorem nodup_insertNew {l : List String} (h : String) (hl : l.Nodup) :
    (insertNew l h).Nodup := by
  unfold insertNew
  split
  · exact hl
  · rename_i hmem
    simpa [List.nodup_append] using ⟨hl, hmem⟩

theorem nodup_insertAll {l : List String} (hs : List String) (hl : l.Nodup) :
    (insertAll l hs).Nodup := by
  induction hs generalizing l with
  | nil => exact hl
  | cons h t ih => rw [insertAll_cons]; exact ih (nodup_insertNew h hl)

theorem findA_eq_none {out : List (String × OutVal)} {k : String} :
    findA out k = none ↔ k ∉ out.map Prod.fst := by
  induction out with
  | nil => simp [findA]
  | cons kv rest ih =>
    obtain ⟨k', v⟩ := kv
    by_cases hk : k' = k
    · subst hk; simp [findA]
    · simp only [findA, if_neg hk, List.map_cons, List.mem_cons]
      rw [ih]
      have hk' : ¬ k = k' := fun h => hk h.symm
      tauto

theorem setAssoc_keys {out : List (String × OutVal)} {k : String} (v : OutVal)
    (hmem : k ∈ out.map Prod.fst) :
    (setAssoc out k v).map Prod.fst = out.map Prod.fst := by
  induction out with
  | nil => simp at hmem
  | cons kv rest ih =>
    obtain ⟨k', v'⟩ := kv
    by_cases hk : k' = k
    · simp [setAssoc, hk]
    · simp only [List.map_cons, List.mem_cons] at hmem
      rcases hmem with h | h
      · exact absurd h.symm hk
      · simp [setAssoc, hk, ih h]

theorem recordScalar_out (st : FlatState) (anc : List String) (sc : Scalar) :
    (recordScalar st anc sc).out =
      match findA st.out (joinSep "," anc) with
      | some old =>
        setAssoc st.out (joinSep "," anc) (.acc (outValStr old ++ "," ++ pyStr sc))
      | none => st.out ++ [(joinSep "," anc, .raw sc)] := rfl

theorem recordScalar_headers (st : FlatState) (anc : List String) (sc : Scalar) :
    (recordScalar st anc sc).headers = insertNew st.headers (joinSep "," anc) := rfl

theorem recordScalar_keys (st : FlatState) (anc : List String) (sc : Scalar) :
    (recordScalar st anc sc).out.map Prod.fst =
      insertNew (st.out.map Prod.fst) (joinSep "," anc) := by
  rw [recordScalar_out]
  cases hf : findA st.out (joinSep "," anc) with
  | none =>
    have hnot := findA_eq_none.mp hf
    simp [insertNew, hnot]
  | some old =>
    have hmem : joinSep "," anc ∈ st.out.map Prod.fst := by
      by_contra hcon
      rw [← findA_eq_none, hf] at hcon
      exact Option.noConfusion hcon
    simp [insertNew, hmem, setAssoc_keys _ hmem]

theorem keys_kvFields (fs : List (String × Json)) (anc : List String)
    (ih : ∀ kv ∈ fs, ∀ (anc' : List String) (st : FlatState),
      (to_keyvalue_pairs kv.2 anc' st).out.map Prod.fst =
        insertAll (st.out.map Prod.fst) ((scalarPaths kv.2 anc').map (joinSep ","))) :
    ∀ st : FlatState, (kvFields fs anc st).out.map Prod.fst =
      insertAll (st.out.map Prod.fst) ((pathsFields fs anc).map (joinSep ",")) := by
  induction fs with
  | nil => intro st; simp [kvFields, pathsFields, insertAll_nil]
  | cons kv rest ihrest =>
    intro st
    obtain ⟨k, v⟩ := kv
    rw [kvFields, pathsFields, List.map_append, insertAll_append]
    rw [ihrest (fun kv h => ih kv (List.mem_cons_of_mem _ h))]
    rw [ih (k, v) (List.mem_cons_self _ _)]

theorem keys_kvItems (xs : List Json) (anc : List String)
    (ih : ∀ x ∈ xs, ∀ (anc' : List String) (st : FlatState),
      (to_keyvalue_pairs x anc' st).out.map Prod.fst =
        insertAll (st.out.map Prod.fst) ((scalarPaths x anc').map (joinSep ","))) :
    ∀ st : FlatState, (kvItems xs anc st).out.map Prod.fst =
      insertAll (st.out.map Prod.fst) ((pathsItems xs anc).map (joinSep ",")) := by
  induction xs with
  | nil => intro st; simp [kvItems, pathsItems, insertAll_nil]
  | cons x rest ihrest =>
    intro st
    rw [kvItems, pathsItems, List.map_append, insertAll_append]
    rw [ihrest (fun x h => ih x (List.mem_cons_of_mem _ h))]
    rw [ih x (List.mem_cons_self _ _)]

/-- The keys of `out` after a `to_keyvalue_pairs` call are the previous keys
extended, first-occurrence-deduplicated, by the joined scalar paths of the
processed value. -/
theorem keys_tkv : ∀ (d : Json) (anc : List String) (st : FlatState),
    (to_keyvalue_pairs d anc st).out.map Prod.fst =
      insertAll (st.out.map Prod.fst) ((scalarPaths d anc).map (joinSep ","))
  | .scalar sc, anc, st => by
    rw [to_keyvalue_pairs, scalarPaths, recordScalar_keys]
    rfl
  | .obj fields, anc, st => by
    rw [to_keyvalue_pairs, scalarPaths]
    exact keys_kvFields fields anc (fun kv hkv => keys_tkv kv.2) st
  | .arr items, anc, st => by
    rw [to_keyvalue_pairs, scalarPaths]
    exact keys_kvItems items anc (fun x hx => keys_tkv x) st
termination_by d _ _ => sizeOf d
decreasing_by
  · obtain ⟨k, v⟩ := kv
    have h1 := List.sizeOf_lt_of_mem hkv
    simp only [Prod.mk.sizeOf_spec] at h1
    simp only [Json.obj.sizeOf_spec]
    omega
  · have h1 := List.sizeOf_lt_of_mem hx
    simp only [Json.arr.sizeOf_spec]
    omega

theorem mem_pathsFields {fs : List (String × Json)} {anc p : List String} :
    p ∈ pathsFields fs anc ↔ ∃ kv ∈ fs, p ∈ scalarPaths kv.2 (anc ++ [kv.1]) := by
  induction fs with
  | nil => simp [pathsFields]
  | cons kv rest ih =>
    obtain ⟨k, v⟩ := kv
    simp [pathsFields, ih]

theorem mem_pathsItems {xs : List Json} {anc p : List String} :
    p ∈ pathsItems xs anc ↔ ∃ x ∈ xs, p ∈ scalarPaths x anc := by
  induction xs with
  | nil => simp [pathsItems]
  | cons x rest ih => simp [pathsItems, ih]

theorem lands_scalar_inv {sc sc' : Scalar} {q : List String}
    (h : Lands (.scalar sc) q sc') : q = [] ∧ sc' = sc := by
  cases h; exact ⟨rfl, rfl⟩

theorem lands_obj_inv {fields : List (String × Json)} {q : List String} {sc : Scalar}
    (h : Lands (.obj fields) q sc) :
    ∃ k v p, (k, v) ∈ fields ∧ Lands v p sc ∧ q = k :: p := by
  cases h with
  | obj hkv hl => exact ⟨_, _, _, hkv, hl, rfl⟩

theorem lands_arr_inv {items : List Json} {q : List String} {sc : Scalar}
    (h : Lands (.arr items) q sc) : ∃ x, x ∈ items ∧ Lands x q sc := by
  cases h with
  | arr hx hl => exact ⟨_, hx, hl⟩

/-- A path occurs in the trace of the flattener exactly when it is `anc`
followed by a field-path at which a scalar lands by the scalar-descent rule. -/
theorem mem_scalarPaths : ∀ (d : Json) (anc p : List String),
    (p ∈ scalarPaths d anc ↔ ∃ q sc, Lands d q sc ∧ p = anc ++ q)
  | .scalar sc, anc, p => by
    rw [scalarPaths]
    constructor
    · intro hp
      simp only [List.mem_singleton] at hp
      exact ⟨[], sc, Lands.scalar sc, by simp [hp]⟩
    · rintro ⟨q, sc', hl, rfl⟩
      obtain ⟨rfl, rfl⟩ := lands_scalar_inv hl
      simp
  | .obj fields, anc, p => by
    rw [scalarPaths, mem_pathsFields]
    constructor
    · rintro ⟨⟨k, v⟩, hkv, hp⟩
      obtain ⟨q, sc, hl, rfl⟩ := (mem_scalarPaths v (anc ++ [k]) p).mp hp
      exact ⟨k :: q, sc, Lands.obj hkv hl, by simp⟩
    · rintro ⟨q, sc, hl, rfl⟩
      obtain ⟨k, v, p', hkv, hl', rfl⟩ := lands_obj_inv hl
      exact ⟨(k, v), hkv,
        (mem_scalarPaths v (anc ++ [k]) _).mpr ⟨p', _, hl', by simp⟩⟩
  | .arr items, anc, p => by
    rw [scalarPaths, mem_pathsItems]
    constructor
    · rintro ⟨x, hx, hp⟩
      obtain ⟨q, sc, hl, rfl⟩ := (mem_scalarPaths x anc p).mp hp
      exact ⟨q, sc, Lands.arr hx hl, rfl⟩
    · rintro ⟨q, sc, hl, rfl⟩
      obtain ⟨x, hx, hl'⟩ := lands_arr_inv hl
      exact ⟨x, hx, (mem_scalarPaths x anc _).mpr ⟨q, _, hl', rfl⟩⟩
termination_by d _ _ => sizeOf d
decreasing_by
  all_goals
    first
    | (have h1 := List.sizeOf_lt_of_mem hkv
       simp only [Prod.mk.sizeOf_spec] at h1
       simp only [Json.obj.sizeOf_spec]
       omega)
    | (have h1 := List.sizeOf_lt_of_mem hx
       simp only [Json.arr.sizeOf_spec]
       omega)

/-- C3 (amended): flattening produces exactly one entry per distinct
comma-joined field-path reachable by the scalar-descent rule — the entry keys
are duplicate-free and a key occurs iff it is the comma-join of a field-path
at which a scalar lands; the `Lands` rule extends paths only at map keys, so
no array index appears as a path segment.  (Distinct field-paths whose joined
renderings coincide share a single entry; see `c3_join_collision`.) -/
theorem c3_one_entry_per_joined_path (d : Json) :
    ((flattenDoc d).map Prod.fst).Nodup ∧
    ∀ h : String, h ∈ (flattenDoc d).map Prod.fst ↔
      ∃ p sc, Lands d p sc ∧ h = joinSep "," p := by
  have hkeys : (flattenDoc d).map Prod.fst =
      insertAll [] ((scalarPaths d []).map (joinSep ",")) := by
    unfold flattenDoc
    rw [keys_tkv]
    rfl
  constructor
  · rw [hkeys]
    exact nodup_insertAll _ List.nodup_nil
  · intro h
    rw [hkeys, mem_insertAll]
    simp only [List.not_mem_nil, false_or, List.mem_map]
    constructor
    · rintro ⟨p, hp, rfl⟩
      obtain ⟨q, sc, hl, hpq⟩ := (mem_scalarPaths d [] p).mp hp
      exact ⟨q, sc, hl, by simp [hpq]⟩
    · rintro ⟨p, sc, hl, rfl⟩
      exact ⟨p, (mem_scalarPaths d [] p).mpr ⟨p, sc, hl, by simp⟩, rfl⟩

/-- C3 witness: concrete instance of `c3_one_entry_per_joined_path`. -/
theorem c3_one_entry_per_joined_path_witness :
    ((flattenDoc c4Doc).map Prod.fst).Nodup :=
  (c3_one_entry_per_joined_path c4Doc).1

/-- C3 counterexample: on `collideDoc` two distinct field-paths — `["a,b"]`
holding `1` and `["a", "b"]` holding `2` — are reachable by the
scalar-descent rule, yet the flattened output has a single entry (the two
paths' comma-joined renderings collide), refuting "exactly one entry per
distinct field-path" as literally stated. -/
theorem c3_join_collision :
    (flattenDoc collideDoc).length = 1 ∧
    (flattenDoc collideDoc).map Prod.fst = ["a,b"] ∧
    Lands collideDoc ["a,b"] (.i 1) ∧
    Lands collideDoc ["a", "b"] (.i 2) ∧
    (["a,b"] : List String) ≠ ["a", "b"] := by
  refine ⟨?_, ?_, ?_, ?_, by decide⟩
  · simp [flattenDoc, collideDoc, to_keyvalue_pairs, kvFields, kvItems,
      recordScalar, findA, setAssoc, joinSep, outValStr, pyStr, intStr,
      natStr, natDigitsAux]
  · simp [flattenDoc, collideDoc, to_keyvalue_pairs, kvFields, kvItems,
      recordScalar, findA, setAssoc, joinSep, outValStr, pyStr, intStr,
      natStr, natDigitsAux]
  · exact Lands.obj (List.mem_cons_self _ _) (Lands.scalar _)
  · exact Lands.obj (List.mem_cons_of_mem _ (List.mem_cons_self _ _))
      (Lands.obj (List.mem_cons_self _ _) (Lands.scalar _))

/-- C4: flattening `{"a": {"b": 1, "c": [2, 3]}}` yields exactly the entries
`a,b ↦ 1` (the raw scalar) and `a,c ↦ "2,3"`: the second array element lands
on the already-occupied path `a,c` and is appended to the existing value with
the join separator instead of overwriting it. -/
theorem c4_array_collapse_concat :
    flattenDoc c4Doc = [("a,b", .raw (.i 1)), ("a,c", .acc "2,3")] := by
  simp [flattenDoc, c4Doc, to_keyvalue_pairs, kvFields, kvItems, recordScalar,
    findA, setAssoc, joinSep, outValStr, pyStr, intStr, natStr, natDigitsAux]

/-- When the backend still has pages whose sizes add up exactly to the
remaining count, the while loop consumes precisely those pages and stops. -/
theorem scrollLoop_complete (total : Nat) :
    ∀ (pages : List (List Hit)) (scrolled : Nat),
      (∀ p ∈ pages, p ≠ ([] : List Hit)) →
      scrolled + (pages.map List.length).sum = total →
      scrollLoop total scrolled pages = some pages := by
  intro pages
  induction pages with
  | nil =>
    intro scrolled _ hsum
    simp only [List.map_nil, List.sum_nil, Nat.add_zero] at hsum
    rw [scrollLoop]
    simp [hsum]
  | cons p rest ih =>
    intro scrolled hne hsum
    have hp : p ≠ [] := hne p (List.mem_cons_self _ _)
    have hplen : 0 < p.length := List.length_pos.mpr hp
    simp only [List.map_cons, List.sum_cons] at hsum
    have hlt : scrolled < total := by omega
    rw [scrollLoop]
    simp only [if_pos hlt]
    rw [ih (scrolled + p.length)
      (fun q hq => hne q (List.mem_cons_of_mem _ hq)) (by omega)]
    rfl

/-- C1: if the backend delivers non-empty pages whose sizes sum to the
reported total `T` (no concurrent mutation), the export loop of `dump_index`
terminates, fetches and writes exactly the delivered batches in order, the
batch sizes sum to `T`, and the concatenation of the batches — every
document exactly once — has length `T`. -/
theorem c1_dump_index_complete (total : Nat) (firstPage : List Hit)
    (rest : List (List Hit))
    (hne : ∀ p ∈ firstPage :: rest, p ≠ ([] : List Hit))
    (hsum : ((firstPage :: rest).map List.length).sum = total) :
    dump_index total firstPage rest = .finished (firstPage :: rest) ∧
    ((firstPage :: rest).map List.length).sum = total ∧
    (firstPage :: rest).flatten.length = total := by
  have hfp : firstPage ≠ [] := hne _ (List.mem_cons_self _ _)
  have hlen : ¬ firstPage.length = 0 := by
    simpa [List.length_eq_zero] using hfp
  refine ⟨?_, hsum, ?_⟩
  · unfold dump_index
    rw [if_neg hlen]
    rw [scrollLoop_complete total rest firstPage.length
      (fun p hp => hne p (List.mem_cons_of_mem _ hp))
      (by simp only [List.map_cons, List.sum_cons] at hsum; omega)]
  · rw [List.length_flatten]
    exact hsum

/-- C1 witness: three documents delivered as a first page of two and a scroll
page of one, with `total_hits = 3`. -/
theorem c1_dump_index_complete_witness :
    dump_index 3 [noSourceHit, noSourceHit] [[noSourceHit]] =
      .finished [[noSourceHit, noSourceHit], [noSourceHit]] :=
  (c1_dump_index_complete 3 [noSourceHit, noSourceHit] [[noSourceHit]]
    (by intro p hp; simp only [List.mem_cons, List.not_mem_nil, or_false] at hp
        rcases hp with rfl | rfl <;> simp)
    (by simp)).1

/-- C6: a collection whose first page is empty (as happens when
`total_hits = 0`) produces no output file and nothing is written:
`prepare_file` returns `None` for every file type, `dump_index` returns
before entering the write loop, and the csv export of such a run is no
file at all. -/
theorem c6_empty_first_page_no_file (total : Nat) (rest : List (List Hit))
    (ftype : String) :
    dump_index total [] rest = .noFile ∧
    prepare_file [] ftype = none ∧
    export_csv ([] :: rest) = none := by
  refine ⟨?_, rfl, rfl⟩
  unfold dump_index
  simp

/-- The guarded retry loop, after `j` leading transient failures, reaches
attempt `j` with `j` sleeps taken and the budget reduced by `j`. -/
theorem retryLoop_skip (delay : Nat) (f : Nat → Outcome) :
    ∀ (j m attempt slept : Nat), j ≤ m →
      (∀ k < j, ∃ msg, f (attempt + k) = .transient msg) →
      retryLoop delay f m attempt slept =
        retryLoop delay f (m - j) (attempt + j) (slept + j * delay) := by
  intro j
  induction j with
  | zero => intro m attempt slept _ _; simp
  | succ j ih =>
    intro m attempt slept hjm htrans
    obtain ⟨m', rfl⟩ : ∃ m', m = m' + 1 := ⟨m - 1, by omega⟩
    obtain ⟨msg, hmsg⟩ := htrans 0 (Nat.succ_pos j)
    rw [Nat.add_zero] at hmsg
    rw [retryLoop, hmsg]
    rw [ih m' (attempt + 1) (slept + delay) (by omega)
      (fun k hk => by
        obtain ⟨msg', h'⟩ := htrans (k + 1) (by omega)
        exact ⟨msg', by rw [show attempt + 1 + k = attempt + (k + 1) from by omega]
                        exact h'⟩)]
    have h1 : m' + 1 - (j + 1) = m' - j := by omega
    have h2 : attempt + 1 + j = attempt + (j + 1) := by omega
    have h3 : slept + delay + j * delay = slept + (j + 1) * delay := by
      rw [Nat.succ_mul]; omega
    rw [h1, h2, h3]

/-- C2: when each of the first `tries` attempts fails with the retried class,
the wrapper sleeps the fixed `delay` after each of them (total `tries * delay`
slept) and then makes exactly one further, final attempt (`tries + 1` calls in
all); if that final attempt also fails with the retried class, the process
exits fatally with no result value; if any attempt — the final one or an
earlier one after `j` transient failures — succeeds, its value is returned
with no further attempts made. -/
theorem c2_retry_budget (tries delay : Nat) (f : Nat → Outcome) :
    ((∀ k < tries, ∃ msg, f k = .transient msg) →
      ((∃ msg, f tries = .transient msg) →
        retryRun tries delay f = .fatalExit (tries + 1) (tries * delay)) ∧
      (∀ v, f tries = .ok v →
        retryRun tries delay f = .success v (tries + 1) (tries * delay))) ∧
    (∀ j v, j ≤ tries → (∀ k < j, ∃ msg, f k = .transient msg) →
      f j = .ok v → retryRun tries delay f = .success v (j + 1) (j * delay)) := by
  constructor
  · intro hfail
    have hskip := retryLoop_skip delay f tries tries 0 0 (le_refl _)
      (by simpa using hfail)
    rw [Nat.sub_self, Nat.zero_add, Nat.zero_add] at hskip
    constructor
    · rintro ⟨msg, hmsg⟩
      rw [retryRun, hskip, retryLoop, hmsg]
    · intro v hv
      rw [retryRun, hskip, retryLoop, hv]
  · intro j v hj htrans hok
    have hskip := retryLoop_skip delay f j tries 0 0 hj (by simpa using htrans)
    rw [Nat.zero_add, Nat.zero_add] at hskip
    rw [retryRun, hskip]
    rcases Nat.lt_or_ge j tries with hlt | hge
    · obtain ⟨m', hm⟩ : ∃ m', tries - j = m' + 1 := ⟨tries - j - 1, by omega⟩
      rw [hm, retryLoop, hok]
    · have : tries - j = 0 := by omega
      rw [this, retryLoop, hok]

/-- C2 witness: with a budget of 2 tries and delay 5, an operation that is
transient on every attempt sleeps twice, makes the final third attempt and
exits fatally. -/
theorem c2_retry_budget_witness :
    retryRun 2 5 (fun _ => .transient "conn") = .fatalExit 3 10 :=
  ((c2_retry_budget 2 5 (fun _ => .transient "conn")).1
    (fun _ _ => ⟨"conn", rfl⟩)).1 ⟨"conn", rfl⟩

/-- C7: a failure outside the retried class at attempt `j` (after only
transient failures before it) propagates to the caller at once: the
operation is not invoked again (`j + 1` calls in all) and no delay is waited
for it (only the `j` earlier transient sleeps happened). -/
theorem c7_nontransient_propagates (tries delay : Nat) (f : Nat → Outcome)
    (j : Nat) (msg : String) (hj : j ≤ tries)
    (htrans : ∀ k < j, ∃ m, f k = .transient m)
    (hother : f j = .other msg) :
    retryRun tries delay f = .propagated msg (j + 1) (j * delay) := by
  have hskip := retryLoop_skip delay f j tries 0 0 hj (by simpa using htrans)
  rw [Nat.zero_add, Nat.zero_add] at hskip
  rw [retryRun, hskip]
  rcases Nat.lt_or_ge j tries with hlt | hge
  · obtain ⟨m', hm⟩ : ∃ m', tries - j = m' + 1 := ⟨tries - j - 1, by omega⟩
    rw [hm, retryLoop, hother]
  · have : tries - j = 0 := by omega
    rw [this, retryLoop, hother]

/-- C7 witness: a non-transient failure on the very first attempt propagates
with one call made and no sleeping. -/
theorem c7_nontransient_propagates_witness :
    retryRun 3 60 (fun _ => .other "query") = .propagated "query" 1 0 :=
  c7_nontransient_propagates 3 60 (fun _ => .other "query") 0 "query"
    (by omega) (fun k hk => absurd hk (by omega)) rfl

theorem csvRowsOf_append (a b : List Hit) :
    csvRowsOf (a ++ b) = csvRowsOf a ++ csvRowsOf b := by
  simp [csvRowsOf]

theorem strConcat_append (a b : List String) :
    strConcat (a ++ b) = strConcat a ++ strConcat b := by
  induction a with
  | nil => simp [strConcat]
  | cons x t ih => simp [strConcat, ih, String.append_assoc]

/-- Appending the per-batch `write_to_file` outputs equals appending one
newline-terminated line per row of the concatenated batches. -/
theorem write_batches_rows : ∀ bs : List (List Hit),
    strConcat (bs.map write_to_file_csv) =
      strConcat ((csvRowsOf bs.flatten).map fun r => r ++ "\n") := by
  intro bs
  induction bs with
  | nil => rfl
  | cons b bs' ih =>
    rw [List.map_cons, List.flatten_cons, csvRowsOf_append, List.map_append,
      strConcat_append, ← ih]
    rfl

/-- C5: in csv mode the written header line is computed by `prepare_file`
from the first batch alone (its first document's `_source`), is the prefix of
the file content ahead of every data row, and is the same expression
whatever batches are scrolled later — field-paths discovered in later
batches are never reconciled into it. -/
theorem c5_header_built_once (hd : Hit) (tl : List Hit)
    (rest rest' : List (List Hit)) :
    prepare_file (hd :: tl) "csv" =
      some (joinSep "," (get_headers (hd.source.getD []))) ∧
    export_csv ((hd :: tl) :: rest) =
      some (joinSep "," (get_headers (hd.source.getD [])) ++
        strConcat (((hd :: tl) :: rest).map write_to_file_csv)) ∧
    export_csv ((hd :: tl) :: rest') =
      some (joinSep "," (get_headers (hd.source.getD [])) ++
        strConcat (((hd :: tl) :: rest').map write_to_file_csv)) := by
  refine ⟨?_, ?_, ?_⟩ <;> rfl

/-- C8: two export runs over the same backend pages (the order being fixed by
the `sort='_id'` scroll) produce identical file content — row order and
serialized rows — whatever the runs' timestamps (which only enter the
filename). -/
theorem c8_rerun_identical_content (stamp stamp' index : String) (total : Nat)
    (fp : List Hit) (rest : List (List Hit)) :
    (export_run stamp index total fp rest).map Prod.snd =
      (export_run stamp' index total fp rest).map Prod.snd := by
  unfold export_run
  cases dump_index total fp rest with
  | noFile => rfl
  | hangs => rfl
  | finished bs =>
    dsimp only
    cases export_csv bs <;> rfl

theorem csvRowsOf_length (data : List Hit) :
    (csvRowsOf data).length =
      (data.filter fun h => (hitRow h).isSome).length := by
  induction data with
  | nil => rfl
  | cons h t ih =>
    unfold csvRowsOf at ih ⊢
    rw [List.filterMap_cons, List.filter_cons]
    cases hr : hitRow h <;> simp [hr, ih]

theorem filter_length_lt {α : Type} {p : α → Bool} {l : List α} {x : α}
    (hx : x ∈ l) (hpx : p x = false) :
    (l.filter p).length < l.length := by
  induction l with
  | nil => cases hx
  | cons a t ih =>
    rcases List.mem_cons.mp hx with rfl | hxt
    · rw [List.filter_cons, if_neg (by simp [hpx])]
      simpa using Nat.lt_succ_of_le (List.length_filter_le p t)
    · rw [List.filter_cons]
      by_cases hpa : p a = true
      · rw [if_pos hpa]
        simpa using Nat.succ_lt_succ (ih hxt)
      · rw [if_neg hpa]
        exact Nat.lt_succ_of_lt (ih hxt)

/-- C9: a hit whose `_source` is absent or an empty mapping produces no row:
`write_to_file` writes one row per hit passing the guard, so a batch
containing such a hit yields strictly fewer rows than hits. -/
theorem c9_sourceless_hit_skipped (data : List Hit) (h : Hit)
    (hmem : h ∈ data) (hempty : h.source = none ∨ h.source = some []) :
    hitRow h = none ∧
    (csvRowsOf data).length =
      (data.filter fun x => (hitRow x).isSome).length ∧
    (csvRowsOf data).length < data.length := by
  have hrow : hitRow h = none := by
    rcases hempty with he | he <;> simp [hitRow, he]
  refine ⟨hrow, csvRowsOf_length data, ?_⟩
  rw [csvRowsOf_length]
  exact filter_length_lt hmem (by simp [hrow])

/-- C9 witness: one sourceless hit, zero rows. -/
theorem c9_sourceless_hit_skipped_witness :
    hitRow noSourceHit = none ∧
    (csvRowsOf [noSourceHit]).length < ([noSourceHit] : List Hit).length :=
  ⟨(c9_sourceless_hit_skipped [noSourceHit] noSourceHit
      (List.mem_cons_self _ _) (Or.inl rfl)).1,
   (c9_sourceless_hit_skipped [noSourceHit] noSourceHit
      (List.mem_cons_self _ _) (Or.inl rfl)).2.2⟩

theorem noNl_append {a b : String} (ha : noNl a) (hb : noNl b) :
    noNl (a ++ b) := by
  intro c hc
  rw [String.data_append] at hc
  rcases List.mem_append.mp hc with h | h
  · exact ha c h
  · exact hb c h

theorem noNl_of_all {s : String}
    (h : (s.data.all fun c => !(c == '\n')) = true) : noNl s := by
  intro c hc
  have hb := List.all_eq_true.mp h c hc
  simpa using hb

theorem escChar_no_nl (c c' : Char) (h : c' ∈ escChar c) : c' ≠ '\n' := by
  unfold escChar at h
  split at h
  · simp only [List.mem_cons, List.not_mem_nil, or_false] at h
    rcases h with rfl | rfl <;> decide
  · split at h
    · simp only [List.mem_cons, List.not_mem_nil, or_false] at h
      rcases h with rfl | rfl <;> decide
    · split at h
      · simp only [List.mem_cons, List.not_mem_nil, or_false] at h
        rcases h with rfl | rfl <;> decide
      · split at h
        · simp only [List.mem_cons, List.not_mem_nil, or_false] at h
          rcases h with rfl | rfl <;> decide
        · split at h
          · simp only [List.mem_cons, List.not_mem_nil, or_false] at h
            rcases h with rfl | rfl <;> decide
          · rcases List.mem_singleton.mp h with rfl
            assumption

theorem noNl_jsonQuote (s : String) : noNl (jsonQuote s) := by
  intro c hc
  unfold jsonQuote at hc
  rw [String.data_append, String.data_append] at hc
  rcases List.mem_append.mp hc with h | h
  · rcases List.mem_append.mp h with h1 | h1
    · rcases List.mem_singleton.mp h1 with rfl
      decide
    · obtain ⟨a, ha, hca⟩ := List.mem_flatMap.mp h1
      exact escChar_no_nl a c hca
  · rcases List.mem_singleton.mp h with rfl
    decide

theorem natDigitsAux_no_nl (fuel : Nat) :
    ∀ (n : Nat) (c : Char), c ∈ natDigitsAux fuel n → c ≠ '\n' := by
  induction fuel with
  | zero => intro n c h; cases h
  | succ fuel ih =>
    intro n c h
    unfold natDigitsAux at h
    split at h
    · cases h
    · rcases List.mem_append.mp h with h1 | h1
      · exact ih _ c h1
      · rcases List.mem_singleton.mp h1 with rfl
        have hm : n % 10 < 10 := Nat.mod_lt _ (by norm_num)
        set d := n % 10 with hd
        interval_cases d <;> decide

theorem noNl_natStr (n : Nat) : noNl (natStr n) := by
  intro c hc
  unfold natStr at hc
  split at hc
  · rcases List.mem_singleton.mp hc with rfl
    decide
  · exact natDigitsAux_no_nl n n c hc

theorem noNl_intStr (i : Int) : noNl (intStr i) := by
  cases i with
  | ofNat n => exact noNl_natStr n
  | negSucc m => exact noNl_append (noNl_of_all (by decide)) (noNl_natStr (m + 1))

theorem noNl_dumpScalar (sc : Scalar) : noNl (dumpScalar sc) := by
  cases sc with
  | s v => exact noNl_jsonQuote v
  | i v => exact noNl_intStr v
  | b v => cases v <;> exact noNl_of_all (by decide)
  | null => exact noNl_of_all (by decide)

theorem noNl_dumpOutVal (v : OutVal) : noNl (dumpOutVal v) := by
  cases v with
  | raw sc => exact noNl_dumpScalar sc
  | acc s => exact noNl_jsonQuote s

theorem noNl_joinSep (sep : String) (hsep : noNl sep) :
    ∀ l : List String, (∀ x ∈ l, noNl x) → noNl (joinSep sep l) := by
  intro l
  induction l with
  | nil => intro _ c hc; cases hc
  | cons x t ih =>
    intro hall
    cases t with
    | nil => exact hall x (List.mem_cons_self _ _)
    | cons y t' =>
      rw [joinSep]
      exact noNl_append
        (noNl_append (hall x (List.mem_cons_self _ _)) hsep)
        (ih fun z hz => hall z (List.mem_cons_of_mem _ hz))

theorem noNl_pyDumps (out : List (String × OutVal)) : noNl (pyDumps out) := by
  unfold pyDumps
  refine noNl_append (noNl_append (noNl_of_all (by decide)) ?_) (noNl_of_all (by decide))
  refine noNl_joinSep ", " (noNl_of_all (by decide)) _ ?_
  intro x hx
  obtain ⟨kv, hkv, rfl⟩ := List.mem_map.mp hx
  exact noNl_append
    (noNl_append (noNl_jsonQuote kv.1) (noNl_of_all (by decide))) (noNl_dumpOutVal kv.2)

theorem csvRows_no_nl (data : List Hit) :
    ∀ r ∈ csvRowsOf data, noNl r := by
  intro r hr
  obtain ⟨h, hmem, hrow⟩ := List.mem_filterMap.mp hr
  cases hs : h.source with
  | none => simp [hitRow, hs] at hrow
  | some fields =>
    simp only [hitRow, hs] at hrow
    split at hrow
    · injection hrow with hr'
      subst hr'
      exact noNl_pyDumps _
    · cases hrow

/-- C10: the csv file content is the header line with no trailing newline,
immediately followed — on the same physical line, since every row is
newline-free — by the first data row, each data row being terminated by
exactly one newline. -/
theorem c10_header_unterminated_rows_terminated (hd : Hit) (tl : List Hit)
    (rest : List (List Hit)) :
    export_csv ((hd :: tl) :: rest) =
      some (joinSep "," (get_headers (hd.source.getD [])) ++
        strConcat ((csvRowsOf (((hd :: tl) :: rest).flatten)).map fun r => r ++ "\n")) ∧
    ((csvRowsOf (((hd :: tl) :: rest).flatten)).all fun r =>
      r.data.all fun c => !(c == '\n')) = true := by
  constructor
  · rw [show export_csv ((hd :: tl) :: rest) =
        some (joinSep "," (get_headers (hd.source.getD [])) ++
          strConcat (((hd :: tl) :: rest).map write_to_file_csv)) from rfl,
      write_batches_rows]
  · rw [List.all_eq_true]
    intro r hr
    rw [List.all_eq_true]
    intro c hc
    have hne := csvRows_no_nl _ r hr c hc
    simpa using hne

end Es2csv
